import Mathlib

/-!
Verification of the consorcio quota-analysis algorithms.

The definitions below are a shallow embedding of the Python sources:
  analyze_optimal_cotas.py : get_active_cotas, find_selected_cota,
                             calculate_catchment, find_gaps, and the
                             gap-classification loop of main
  analisar_pontas.py       : find_edge_opportunities
  analisar_sequencias.py / visualizar_grupo_simples.py :
                             find_consecutive_sequences (identical copies)

Python sets of ints become Finset Int, Python lists become List, and the
Python floats used for percentages become exact rationals.
-/

namespace Consorcio

/-- Embeds get_active_cotas: all cotas 1..total minus contempladas minus
disponiveis. -/
def get_active_cotas (total_cotas : Nat) (contempladas disponiveis : Finset Int) :
    Finset Int :=
  (Finset.Icc 1 (total_cotas : Int) \ contempladas) \ disponiveis

/-- One iteration of the search loop of find_selected_cota: at a given
offset, try initial_draw - offset first (must be >= 1 and active), then
initial_draw + offset (must be <= max_cota and active). -/
def tryOffset (initial_draw : Int) (active_cotas : Finset Int) (max_cota : Nat)
    (offset : Int) : Option Int :=
  let below := initial_draw - offset
  if 1 ≤ below ∧ below ∈ active_cotas then some below
  else
    let above := initial_draw + offset
    if above ≤ (max_cota : Int) ∧ above ∈ active_cotas then some above
    else none

/-- Embeds find_selected_cota: if the draw itself is active it wins,
otherwise offsets 1, 2, ..., max_cota - 1 are tried in order (the Python
loop over range(1, max_cota)), below before above at each offset; None
when the loop exhausts. -/
def find_selected_cota (initial_draw : Int) (active_cotas : Finset Int)
    (max_cota : Nat) : Option Int :=
  if initial_draw ∈ active_cotas then some initial_draw
  else
    ((List.range' 1 (max_cota - 1)).map (fun k : Nat => (k : Int))).findSome?
      (tryOffset initial_draw active_cotas max_cota)

/-- Position of candidate v in the test order of the search: the draw
itself has rank 0, draw - o has rank 2*o - 1, draw + o has rank 2*o, so
below is tested before above at each offset. -/
def testRank (draw v : Int) : Int :=
  if v < draw then 2 * (draw - v) - 1 else 2 * (v - draw)

/-- v is a candidate the search loop would accept at some offset o with
lo < o <= hi: below the draw (and >= 1) or above it (and <= max_cota). -/
def candIn (draw : Int) (active_cotas : Finset Int) (max_cota : Nat)
    (lo hi : Int) (v : Int) : Prop :=
  v ∈ active_cotas ∧
    ((1 ≤ v ∧ v < draw ∧ lo < draw - v ∧ draw - v ≤ hi) ∨
     (draw < v ∧ v ≤ (max_cota : Int) ∧ lo < v - draw ∧ v - draw ≤ hi))

/-- The draw range 1..max_cota scanned by calculate_catchment (the Python
loop over range(1, max_cota + 1)). -/
def drawList (max_cota : Nat) : List Int :=
  (List.range' 1 max_cota).map (fun k : Nat => (k : Int))

/-- Embeds calculate_catchment: for a non-active cota returns (0, []);
otherwise collects, in ascending order, the draws 1..max_cota whose
resolution is this cota, returning their count and list. -/
def calculate_catchment (cota : Int) (active_cotas : Finset Int)
    (max_cota : Nat) : Nat × List Int :=
  if cota ∉ active_cotas then (0, [])
  else
    let draws := (drawList max_cota).filter
      (fun d => decide (find_selected_cota d active_cotas max_cota = some cota))
    (draws.length, draws)

/-- The list of integers lo, lo+1, ..., hi (Python range(lo, hi + 1)). -/
def intRange (lo hi : Int) : List Int :=
  (List.range (hi + 1 - lo).toNat).map (fun k : Nat => lo + k)

/-- One gap record of find_gaps: the tuple (gap_start, gap_end, size,
num_contempladas, num_disponiveis); stop plays the role of gap_end. -/
structure GapRec where
  start : Int
  stop : Int
  size : Int
  num_contempladas : Nat
  num_disponiveis : Nat
  deriving DecidableEq, Repr

/-- The loop body of find_gaps over the sorted active list: for each
adjacent pair (a, b) emit the gap [a+1, b-1] when non-empty, counting the
contempladas and disponiveis inside it. -/
def gapsAux (contempladas disponiveis : Finset Int) : List Int → List GapRec
  | a :: b :: rest =>
    (if b - 1 ≥ a + 1 then
      [⟨a + 1, b - 1, (b - 1) - (a + 1) + 1,
        (intRange (a + 1) (b - 1)).countP (fun c => decide (c ∈ contempladas)),
        (intRange (a + 1) (b - 1)).countP (fun c => decide (c ∈ disponiveis))⟩]
    else []) ++ gapsAux contempladas disponiveis (b :: rest)
  | _ => []

/-- Embeds find_gaps: gaps between successive sorted active cotas. -/
def find_gaps (active_cotas contempladas disponiveis : Finset Int) : List GapRec :=
  gapsAux contempladas disponiveis (active_cotas.sort (· ≤ ·))

/-- The set of all cota ids covered by a list of gaps. -/
def gapsUnion (gaps : List GapRec) : Finset Int :=
  gaps.foldr (fun g acc => Finset.Icc g.start g.stop ∪ acc) ∅

/-- One analyzed gap record of the gap-classification loop in main
(analyze_optimal_cotas.py lines 150-175). -/
structure AnalyzedGap where
  start : Int
  stop : Int
  size : Int
  num_contempladas : Nat
  num_disponiveis : Nat
  lower_boundary : Int
  upper_boundary : Int
  lower_buyable : Bool
  upper_buyable : Bool
  lower_active : Bool
  upper_active : Bool
  buyable_in_gap : List Int
  deriving DecidableEq, Repr

/-- Embeds the body of the gap-analysis loop of main: boundary positions
one step outside the gap, their classification by set membership, and the
buyable cotas inside the gap. -/
def analyze_gap (active disponiveis : Finset Int) (g : GapRec) : AnalyzedGap :=
  { start := g.start
    stop := g.stop
    size := g.size
    num_contempladas := g.num_contempladas
    num_disponiveis := g.num_disponiveis
    lower_boundary := g.start - 1
    upper_boundary := g.stop + 1
    lower_buyable := decide ((g.start - 1) ∈ disponiveis)
    upper_buyable := decide ((g.stop + 1) ∈ disponiveis)
    lower_active := decide ((g.start - 1) ∈ active)
    upper_active := decide ((g.stop + 1) ∈ active)
    buyable_in_gap := (intRange g.start g.stop).filter
      (fun c => decide (c ∈ disponiveis)) }

/-- Embeds the gap-analysis loop of main over all gaps. -/
def analyze_gaps (active contempladas disponiveis : Finset Int) : List AnalyzedGap :=
  (find_gaps active contempladas disponiveis).map (analyze_gap active disponiveis)

/-- The fields of the group-data dict read by find_edge_opportunities
(analisar_pontas.py): total_quotas, available and occupied. -/
structure GroupData where
  total_quotas : Nat
  available : Finset Int
  occupied : Finset Int
  deriving DecidableEq

/-- One opportunity record of find_edge_opportunities; stop plays the role
of the end key. Percentages are exact rationals. -/
structure OpportunityRec where
  start : Int
  stop : Int
  length : Int
  middle_occupied : Nat
  middle_available : Nat
  middle_total : Nat
  occupied_pct : ℚ
  score : ℚ
  middle_occupied_list : List Int
  middle_available_list : List Int
  deriving DecidableEq, Repr

/-- The interior occupancy fraction of the candidate interval [s, e]:
size of (s, e) exclusive intersected with occupied, over the interior size. -/
def occupiedFrac (data : GroupData) (s e : Int) : ℚ :=
  ((Finset.Icc (s + 1) (e - 1) ∩ data.occupied).card : ℚ) /
    ((Finset.Icc (s + 1) (e - 1)).card : ℚ)

/-- The record appended by find_edge_opportunities for start s and the
given length. -/
def mkOpportunity (data : GroupData) (s len : Int) : OpportunityRec :=
  let e := s + len - 1
  let middle := Finset.Icc (s + 1) (e - 1)
  let mo := middle ∩ data.occupied
  let ma := middle ∩ data.available
  { start := s
    stop := e
    length := len
    middle_occupied := mo.card
    middle_available := ma.card
    middle_total := middle.card
    occupied_pct := (mo.card : ℚ) / (middle.card : ℚ)
    score := (len : ℚ) * ((mo.card : ℚ) / (middle.card : ℚ)) * 100
    middle_occupied_list := mo.sort (· ≤ ·)
    middle_available_list := ma.sort (· ≤ ·) }

/-- The body of the inner loop of find_edge_opportunities: the three
guard-and-continue tests in source order (empty interior, endpoints not
both available, occupancy below threshold), then the appended record. -/
def opportunity_guard (data : GroupData) (min_occupied_pct : ℚ) (s len : Int) :
    Option OpportunityRec :=
  let e := s + len - 1
  let middle := Finset.Icc (s + 1) (e - 1)
  if middle = ∅ then none
  else if s ∉ data.available ∨ e ∉ data.available then none
  else if ((middle ∩ data.occupied).card : ℚ) / (middle.card : ℚ) < min_occupied_pct
  then none
  else some (mkOpportunity data s len)

/-- The generation loop of find_edge_opportunities, in source order: start
ranges over range(1, total - min_length + 2), length over
range(min_length, min(51, total - start + 2)). -/
def opportunity_candidates (data : GroupData) (min_length : Int)
    (min_occupied_pct : ℚ) : List OpportunityRec :=
  (intRange 1 ((data.total_quotas : Int) - min_length + 1)).flatMap (fun s =>
    (intRange min_length (min 50 ((data.total_quotas : Int) - s + 1))).filterMap
      (opportunity_guard data min_occupied_pct s))

/-- The sort key of find_edge_opportunities: descending score (the stable
sort with key score and reverse = True). -/
def scoreOrder (o1 o2 : OpportunityRec) : Prop := o2.score ≤ o1.score

instance : DecidableRel scoreOrder := fun o1 o2 =>
  inferInstanceAs (Decidable (o2.score ≤ o1.score))

instance : IsTotal OpportunityRec scoreOrder :=
  ⟨fun o1 o2 => le_total o2.score o1.score⟩

instance : IsTrans OpportunityRec scoreOrder :=
  ⟨fun _ _ _ h1 h2 => le_trans h2 h1⟩

/-- Embeds find_edge_opportunities: generate candidates, then stable-sort
by descending score (Python list.sort is a stable sort). -/
def find_edge_opportunities (data : GroupData) (min_length : Int)
    (min_occupied_pct : ℚ) : List OpportunityRec :=
  (opportunity_candidates data min_length min_occupied_pct).insertionSort scoreOrder

/-- One run record of find_consecutive_sequences (analisar_sequencias.py and
its identical copy in visualizar_grupo_simples.py): the member list, first
and last cota and the length. stop plays the role of the end key. -/
structure RunRec where
  quotas : List Int
  start : Int
  stop : Int
  length : Nat
  deriving DecidableEq, Repr

/-- The record appended when a run closes: first element, last element and
length of the accumulated current sequence. -/
def mkRun (cur : List Int) : RunRec :=
  { quotas := cur, start := cur.headD 0, stop := cur.getLastD 0, length := cur.length }

/-- The scan loop of find_consecutive_sequences over the sorted deduplicated
cotas: extend the current run on a consecutive element, otherwise close it
(keeping it only when it has two or more members) and restart. -/
def scanRuns (cur : List Int) (prev : Int) : List Int → List RunRec
  | [] => if 2 ≤ cur.length then [mkRun cur] else []
  | c :: rest =>
    if c = prev + 1 then scanRuns (cur ++ [c]) c rest
    else (if 2 ≤ cur.length then [mkRun cur] else []) ++ scanRuns [c] c rest

/-- The final sort key of find_consecutive_sequences: the stable ascending
sort by (-length, start), i.e. descending length with ascending start as
tie-break. -/
def runsOrder (s1 s2 : RunRec) : Prop :=
  s2.length < s1.length ∨ (s1.length = s2.length ∧ s1.start ≤ s2.start)

instance : DecidableRel runsOrder := fun s1 s2 =>
  inferInstanceAs (Decidable (s2.length < s1.length ∨
    (s1.length = s2.length ∧ s1.start ≤ s2.start)))

instance : IsTotal RunRec runsOrder := by
  refine ⟨fun a b => ?_⟩
  unfold runsOrder
  rcases lt_trichotomy a.length b.length with h | h | h
  · exact Or.inr (Or.inl h)
  · rcases le_total a.start b.start with h2 | h2
    · exact Or.inl (Or.inr ⟨h, h2⟩)
    · exact Or.inr (Or.inr ⟨h.symm, h2⟩)
  · exact Or.inl (Or.inl h)

instance : IsTrans RunRec runsOrder := by
  refine ⟨fun a b c h1 h2 => ?_⟩
  unfold runsOrder at h1 h2 ⊢
  rcases h1 with h1 | h1 <;> rcases h2 with h2 | h2
  · exact Or.inl (by omega)
  · exact Or.inl (by omega)
  · exact Or.inl (by omega)
  · exact Or.inr ⟨by omega, le_trans h1.2 h2.2⟩

/-- Embeds find_consecutive_sequences: sort the deduplicated input
ascending, scan for consecutive runs of length at least 2, then stable-sort
by (-length, start). An empty input yields an empty result. -/
def find_consecutive_sequences (quotas_list : List Int) : List RunRec :=
  match (quotas_list.dedup).insertionSort (· ≤ ·) with
  | [] => []
  | x :: xs => (scanRuns [x] x xs).insertionSort runsOrder

/-- The run record of the full integer interval [a, b]. -/
def runOf (a b : Int) : RunRec :=
  ⟨intRange a b, a, b, (b + 1 - a).toNat⟩

theorem testRank_below {draw v : Int} (h : v < draw) :
    testRank draw v = 2 * (draw - v) - 1 := by
  simp only [testRank, if_pos h]

theorem testRank_above {draw v : Int} (h : ¬ v < draw) :
    testRank draw v = 2 * (v - draw) := by
  simp only [testRank, if_neg h]

theorem candIn_congr {draw : Int} {active : Finset Int} {max_cota : Nat}
    {lo lo' hi hi' v : Int} (h1 : lo = lo') (h2 : hi = hi') :
    candIn draw active max_cota lo hi v ↔ candIn draw active max_cota lo' hi' v := by
  rw [h1, h2]

theorem candIn_rank_lower {draw : Int} {active : Finset Int} {max_cota : Nat}
    {lo hi v : Int} (h : candIn draw active max_cota lo hi v) :
    2 * lo + 1 ≤ testRank draw v := by
  rcases h with ⟨-, h | h⟩
  · rw [testRank_below (by omega)]; omega
  · rw [testRank_above (by omega)]; omega

/-- The loop over offsets j+1, ..., j+n returns w iff w is a candidate in
that window with minimal test rank; it returns none iff the window has no
candidate. -/
theorem findSome?_tryOffset_spec (draw : Int) (active : Finset Int)
    (max_cota : Nat) :
    ∀ (n j : Nat),
      (∀ w, ((List.range' (j + 1) n).map (fun k : Nat => (k : Int))).findSome?
          (tryOffset draw active max_cota) = some w ↔
        (candIn draw active max_cota (j : Int) ((j : Int) + ((n : Nat) : Int)) w ∧
          ∀ v, candIn draw active max_cota (j : Int) ((j : Int) + ((n : Nat) : Int)) v →
            testRank draw w ≤ testRank draw v)) ∧
      (((List.range' (j + 1) n).map (fun k : Nat => (k : Int))).findSome?
          (tryOffset draw active max_cota) = none ↔
        ∀ v, ¬ candIn draw active max_cota (j : Int) ((j : Int) + ((n : Nat) : Int)) v) := by
  intro n
  induction n with
  | zero =>
    intro j
    have hnil : ((List.range' (j + 1) 0).map (fun k : Nat => (k : Int))) = ([] : List Int) := rfl
    constructor
    · intro w
      rw [hnil, List.findSome?_nil]
      constructor
      · intro h; exact absurd h (by simp)
      · rintro ⟨⟨-, h | h⟩, -⟩ <;> omega
    · rw [hnil, List.findSome?_nil]
      constructor
      · rintro - v ⟨-, h | h⟩ <;> omega
      · intro; rfl
  | succ n ih =>
    intro j
    have hrange : List.range' (j + 1) (n + 1) = (j + 1) :: List.range' (j + 1 + 1) n :=
      List.range'_succ _ _ _
    by_cases hb : 1 ≤ draw - ((j + 1 : Nat) : Int) ∧ draw - ((j + 1 : Nat) : Int) ∈ active
    · -- below wins at offset j+1
      have htry : tryOffset draw active max_cota ((j + 1 : Nat) : Int) =
          some (draw - ((j + 1 : Nat) : Int)) := by
        simp only [tryOffset, if_pos hb]
      have hres : ((List.range' (j + 1) (n + 1)).map (fun k : Nat => (k : Int))).findSome?
          (tryOffset draw active max_cota) = some (draw - ((j + 1 : Nat) : Int)) := by
        rw [hrange]
        simp only [List.map_cons, List.findSome?_cons, htry]
      have hrankb : testRank draw (draw - ((j + 1 : Nat) : Int)) = 2 * (j : Int) + 1 := by
        rw [testRank_below (by omega)]; omega
      have hcand : candIn draw active max_cota (j : Int)
          ((j : Int) + ((n + 1 : Nat) : Int)) (draw - ((j + 1 : Nat) : Int)) :=
        ⟨hb.2, Or.inl ⟨by omega, by omega, by omega, by push_cast; omega⟩⟩
      have hmin : ∀ v, candIn draw active max_cota (j : Int)
          ((j : Int) + ((n + 1 : Nat) : Int)) v →
          testRank draw (draw - ((j + 1 : Nat) : Int)) ≤ testRank draw v := by
        intro v hv
        have := candIn_rank_lower hv
        omega
      constructor
      · intro w
        rw [hres]
        constructor
        · intro h
          obtain rfl : draw - ((j + 1 : Nat) : Int) = w := by injection h
          exact ⟨hcand, hmin⟩
        · rintro ⟨hw, hwmin⟩
          have h1 := hwmin _ hcand
          have h2 := hmin w hw
          rcases hw with ⟨-, hside | hside⟩
          · have hw_eq : testRank draw w = 2 * (draw - w) - 1 :=
              testRank_below hside.2.1
            rw [hrankb, hw_eq] at h1 h2
            exact congrArg some (by omega)
          · have hw_eq : testRank draw w = 2 * (w - draw) :=
              testRank_above (by omega)
            rw [hrankb, hw_eq] at h1 h2
            exact absurd h1 (by omega)
      · rw [hres]
        constructor
        · intro h; exact absurd h (by simp)
        · intro h
          exact absurd hcand (h (draw - ((j + 1 : Nat) : Int)))
    · by_cases ha : draw + ((j + 1 : Nat) : Int) ≤ (max_cota : Int) ∧
          draw + ((j + 1 : Nat) : Int) ∈ active
      · -- above wins at offset j+1 (below failed at this offset)
        have htry : tryOffset draw active max_cota ((j + 1 : Nat) : Int) =
            some (draw + ((j + 1 : Nat) : Int)) := by
          simp only [tryOffset, if_neg hb, if_pos ha]
        have hres : ((List.range' (j + 1) (n + 1)).map (fun k : Nat => (k : Int))).findSome?
            (tryOffset draw active max_cota) = some (draw + ((j + 1 : Nat) : Int)) := by
          rw [hrange]
          simp only [List.map_cons, List.findSome?_cons, htry]
        have hranka : testRank draw (draw + ((j + 1 : Nat) : Int)) = 2 * (j : Int) + 2 := by
          rw [testRank_above (by omega)]; omega
        have hcand : candIn draw active max_cota (j : Int)
            ((j : Int) + ((n + 1 : Nat) : Int)) (draw + ((j + 1 : Nat) : Int)) :=
          ⟨ha.2, Or.inr ⟨by omega, ha.1, by omega, by push_cast; omega⟩⟩
        have hmin : ∀ v, candIn draw active max_cota (j : Int)
            ((j : Int) + ((n + 1 : Nat) : Int)) v →
            testRank draw (draw + ((j + 1 : Nat) : Int)) ≤ testRank draw v := by
          intro v hv
          rcases hv with ⟨hvmem, hside | hside⟩
          · by_cases heq : draw - v = (j : Int) + 1
            · exact absurd ⟨by omega,
                by rw [show draw - ((j + 1 : Nat) : Int) = v by omega]; exact hvmem⟩ hb
            · have hv_eq : testRank draw v = 2 * (draw - v) - 1 :=
                testRank_below hside.2.1
              rw [hranka, hv_eq]
              omega
          · have hv_eq : testRank draw v = 2 * (v - draw) :=
              testRank_above (by omega)
            rw [hranka, hv_eq]
            omega
        constructor
        · intro w
          rw [hres]
          constructor
          · intro h
            obtain rfl : draw + ((j + 1 : Nat) : Int) = w := by injection h
            exact ⟨hcand, hmin⟩
          · rintro ⟨hw, hwmin⟩
            have h1 := hwmin _ hcand
            have h2 := hmin w hw
            rcases hw with ⟨hwmem, hside | hside⟩
            · by_cases heq : draw - w = (j : Int) + 1
              · exact absurd ⟨by omega,
                  by rw [show draw - ((j + 1 : Nat) : Int) = w by omega]; exact hwmem⟩ hb
              · have hw_eq : testRank draw w = 2 * (draw - w) - 1 :=
                  testRank_below hside.2.1
                rw [hranka, hw_eq] at h1 h2
                exact absurd h1 (by omega)
            · have hw_eq : testRank draw w = 2 * (w - draw) :=
                testRank_above (by omega)
              rw [hranka, hw_eq] at h1 h2
              exact congrArg some (by omega)
        · rw [hres]
          constructor
          · intro h; exact absurd h (by simp)
          · intro h
            exact absurd hcand (h (draw + ((j + 1 : Nat) : Int)))
      · -- offset j+1 fails on both sides; recurse on the remaining offsets
        have htry : tryOffset draw active max_cota ((j + 1 : Nat) : Int) = none := by
          simp only [tryOffset, if_neg hb, if_neg ha]
        have hres : ((List.range' (j + 1) (n + 1)).map (fun k : Nat => (k : Int))).findSome?
            (tryOffset draw active max_cota) =
            ((List.range' (j + 1 + 1) n).map (fun k : Nat => (k : Int))).findSome?
              (tryOffset draw active max_cota) := by
          rw [hrange]
          simp only [List.map_cons, List.findSome?_cons, htry]
        have hwin : ∀ v, candIn draw active max_cota (j : Int)
            ((j : Int) + ((n + 1 : Nat) : Int)) v ↔
            candIn draw active max_cota ((j + 1 : Nat) : Int)
              (((j + 1 : Nat) : Int) + ((n : Nat) : Int)) v := by
          intro v
          constructor
          · rintro ⟨hvmem, hside | hside⟩
            · refine ⟨hvmem, Or.inl ⟨hside.1, hside.2.1, ?_, ?_⟩⟩
              · by_cases heq : draw - v = (j : Int) + 1
                · exact absurd ⟨by omega,
                    by rw [show draw - ((j + 1 : Nat) : Int) = v by omega]; exact hvmem⟩ hb
                · have := hside.2.2.1
                  push_cast
                  omega
              · have := hside.2.2.2
                push_cast at this ⊢
                omega
            · refine ⟨hvmem, Or.inr ⟨hside.1, hside.2.1, ?_, ?_⟩⟩
              · by_cases heq : v - draw = (j : Int) + 1
                · exact absurd ⟨by omega,
                    by rw [show draw + ((j + 1 : Nat) : Int) = v by omega]; exact hvmem⟩ ha
                · have := hside.2.2.1
                  push_cast
                  omega
              · have := hside.2.2.2
                push_cast at this ⊢
                omega
          · rintro ⟨hvmem, hside | hside⟩
            · refine ⟨hvmem, Or.inl ⟨hside.1, hside.2.1, ?_, ?_⟩⟩
              · have := hside.2.2.1; push_cast at this ⊢; omega
              · have := hside.2.2.2; push_cast at this ⊢; omega
            · refine ⟨hvmem, Or.inr ⟨hside.1, hside.2.1, ?_, ?_⟩⟩
              · have := hside.2.2.1; push_cast at this ⊢; omega
              · have := hside.2.2.2; push_cast at this ⊢; omega
        obtain ⟨ihsome, ihnone⟩ := ih (j + 1)
        constructor
        · intro w
          rw [hres, ihsome w]
          constructor
          · rintro ⟨hw, hmin⟩
            refine ⟨(hwin w).mpr hw, ?_⟩
            intro v hv
            exact hmin v ((hwin v).mp hv)
          · rintro ⟨hw, hmin⟩
            refine ⟨(hwin w).mp hw, ?_⟩
            intro v hv
            exact hmin v ((hwin v).mpr hv)
        · rw [hres, ihnone]
          constructor
          · intro h v hv
            exact h v ((hwin v).mp hv)
          · intro h v hv
            exact h v ((hwin v).mpr hv)

/-- If the drawn number itself is active, the resolver returns it. -/
theorem find_selected_cota_of_mem {draw : Int} {active : Finset Int} {max_cota : Nat}
    (h : draw ∈ active) : find_selected_cota draw active max_cota = some draw := by
  simp only [find_selected_cota, if_pos h]

theorem candIn_hi_cast (draw : Int) (active : Finset Int) (max_cota : Nat) (v : Int) :
    candIn draw active max_cota 0 (((max_cota - 1 : Nat)) : Int) v ↔
      candIn draw active max_cota 0 ((max_cota : Int) - 1) v := by
  constructor
  · rintro ⟨hm, h | h⟩
    · exact ⟨hm, Or.inl ⟨h.1, h.2.1, h.2.2.1, by omega⟩⟩
    · exact ⟨hm, Or.inr ⟨h.1, h.2.1, h.2.2.1, by omega⟩⟩
  · rintro ⟨hm, h | h⟩
    · exact ⟨hm, Or.inl ⟨h.1, h.2.1, h.2.2.1, by omega⟩⟩
    · exact ⟨hm, Or.inr ⟨h.1, h.2.1, h.2.2.1, by omega⟩⟩

theorem candIn_window_conv (draw : Int) (active : Finset Int) (max_cota : Nat) (v : Int) :
    candIn draw active max_cota ((0 : Nat) : Int)
        (((0 : Nat) : Int) + ((max_cota - 1 : Nat) : Int)) v ↔
      candIn draw active max_cota 0 ((max_cota : Int) - 1) v :=
  (candIn_congr (by simp) (by simp)).trans (candIn_hi_cast draw active max_cota v)

/-- Characterization of the resolver on a non-active draw: it returns w iff
w is a reachable candidate of minimal test rank, i.e. the first candidate
accepted in the order -1, +1, -2, +2, ... -/
theorem find_selected_cota_eq_some_iff {draw : Int} {active : Finset Int}
    {max_cota : Nat} (h : draw ∉ active) {w : Int} :
    find_selected_cota draw active max_cota = some w ↔
      (candIn draw active max_cota 0 ((max_cota : Int) - 1) w ∧
        ∀ v, candIn draw active max_cota 0 ((max_cota : Int) - 1) v →
          testRank draw w ≤ testRank draw v) := by
  have hspec := (findSome?_tryOffset_spec draw active max_cota (max_cota - 1) 0).1 w
  rw [Nat.zero_add] at hspec
  simp only [find_selected_cota, if_neg h]
  rw [hspec]
  constructor
  · rintro ⟨hw, hmin⟩
    exact ⟨(candIn_window_conv draw active max_cota w).mp hw,
      fun v hv => hmin v ((candIn_window_conv draw active max_cota v).mpr hv)⟩
  · rintro ⟨hw, hmin⟩
    exact ⟨(candIn_window_conv draw active max_cota w).mpr hw,
      fun v hv => hmin v ((candIn_window_conv draw active max_cota v).mp hv)⟩

/-- The resolver returns none iff the draw is not active and no candidate
is reachable within the offset window. -/
theorem find_selected_cota_eq_none_iff {draw : Int} {active : Finset Int}
    {max_cota : Nat} :
    find_selected_cota draw active max_cota = none ↔
      (draw ∉ active ∧
        ∀ v, ¬ candIn draw active max_cota 0 ((max_cota : Int) - 1) v) := by
  by_cases h : draw ∈ active
  · simp only [find_selected_cota, if_pos h]
    constructor
    · intro hcontra; exact absurd hcontra (by simp)
    · intro hcontra; exact absurd h hcontra.1
  · have hspec := (findSome?_tryOffset_spec draw active max_cota (max_cota - 1) 0).2
    rw [Nat.zero_add] at hspec
    simp only [find_selected_cota, if_neg h]
    rw [hspec]
    constructor
    · intro hno
      exact ⟨h, fun v hv => hno v ((candIn_window_conv draw active max_cota v).mpr hv)⟩
    · intro hno v hv
      exact hno.2 v ((candIn_window_conv draw active max_cota v).mp hv)

/-- Any winner returned by the resolver is an active cota. -/
theorem find_selected_cota_mem {draw w : Int} {active : Finset Int} {max_cota : Nat}
    (h : find_selected_cota draw active max_cota = some w) : w ∈ active := by
  by_cases hd : draw ∈ active
  · rw [find_selected_cota_of_mem hd] at h
    obtain rfl : draw = w := by injection h
    exact hd
  · exact ((find_selected_cota_eq_some_iff hd).mp h).1.1

/-- C1. For every draw, eligible set and maxId: the resolver returns the draw
itself when it is eligible; otherwise it returns w exactly when w is a
candidate reachable at some offset 1..maxId-1 (below needs w >= 1, above
needs w <= maxId) whose testRank is minimal — testRank orders candidates by
offset with below before above at equal offset, so this says the offsets
are scanned in ascending order testing below first. In particular a draw of
11 against eligible quotas 10 and 12 with maxId 20 resolves to 10. -/
theorem C1_resolver_order :
    (∀ (draw : Int) (eligible : Finset Int) (maxId : Nat), draw ∈ eligible →
        find_selected_cota draw eligible maxId = some draw) ∧
    (∀ (draw : Int) (eligible : Finset Int) (maxId : Nat) (w : Int),
        draw ∉ eligible →
        (find_selected_cota draw eligible maxId = some w ↔
          (candIn draw eligible maxId 0 ((maxId : Int) - 1) w ∧
            ∀ v, candIn draw eligible maxId 0 ((maxId : Int) - 1) v →
              testRank draw w ≤ testRank draw v))) ∧
    find_selected_cota 11 ({10, 12} : Finset Int) 20 = some 10 :=
  ⟨fun _ _ _ h => find_selected_cota_of_mem h,
   fun _ _ _ _ h => find_selected_cota_eq_some_iff h,
   by decide⟩

/-- Witness for C1: a concrete application of the first component. -/
theorem C1_resolver_order_witness :
    find_selected_cota 7 ({7} : Finset Int) 9 = some 7 :=
  C1_resolver_order.1 7 {7} 9 (by decide)

/-- C2. If the eligible set is a non-empty subset of [1, maxId] and the draw
lies in [1, maxId], the resolver never returns NotFound; on an empty
eligible set it returns NotFound for every draw. -/
theorem C2_resolver_totality :
    (∀ (draw : Int) (eligible : Finset Int) (maxId : Nat),
        eligible.Nonempty → (∀ x ∈ eligible, 1 ≤ x ∧ x ≤ (maxId : Int)) →
        1 ≤ draw → draw ≤ (maxId : Int) →
        find_selected_cota draw eligible maxId ≠ none) ∧
    (∀ (draw : Int) (maxId : Nat),
        find_selected_cota draw (∅ : Finset Int) maxId = none) := by
  constructor
  · intro draw eligible maxId hne hbounds hd1 hd2 hnone
    rw [find_selected_cota_eq_none_iff] at hnone
    obtain ⟨hd, hno⟩ := hnone
    obtain ⟨x, hx⟩ := hne
    have hxr := hbounds x hx
    have hxd : x ≠ draw := fun e => hd (e ▸ hx)
    apply hno x
    refine ⟨hx, ?_⟩
    by_cases hlt : x < draw
    · exact Or.inl ⟨hxr.1, hlt, by omega, by omega⟩
    · exact Or.inr ⟨by omega, hxr.2, by omega, by omega⟩
  · intro draw maxId
    rw [find_selected_cota_eq_none_iff]
    refine ⟨by simp, fun v hv => ?_⟩
    simpa using hv.1

/-- Witness for C2: both components at concrete inputs. -/
theorem C2_resolver_totality_witness :
    find_selected_cota 1 ({1} : Finset Int) 1 ≠ none ∧
      find_selected_cota 3 (∅ : Finset Int) 5 = none :=
  ⟨C2_resolver_totality.1 1 {1} 1 ⟨1, by decide⟩ (by decide) (by decide) (by decide),
   C2_resolver_totality.2 3 5⟩

/-- C10. For every quota not in active_cotas, calculate_catchment returns
exactly (0, []): the catchment of a non-eligible quota is defined and empty,
produced by the early-return branch without scanning the draw range. -/
theorem C10_catchment_of_inactive :
    ∀ (cota : Int) (active_cotas : Finset Int) (max_cota : Nat),
      cota ∉ active_cotas →
      calculate_catchment cota active_cotas max_cota = (0, []) := by
  intro cota active_cotas max_cota h
  simp only [calculate_catchment, if_pos h]

/-- Witness for C10: a concrete non-eligible quota. -/
theorem C10_catchment_of_inactive_witness :
    calculate_catchment 5 ({1, 2} : Finset Int) 3 = (0, []) :=
  C10_catchment_of_inactive 5 {1, 2} 3 (by decide)

/-- Summing, over the active cotas, the number of draws of a list that
resolve to each cota gives the number of draws of the list that resolve to
anything at all: each draw that resolves lands on exactly one active cota. -/
theorem sum_countP_resolve (active : Finset Int) (max_cota : Nat) :
    ∀ l : List Int,
      (∑ q ∈ active,
          l.countP (fun d => decide (find_selected_cota d active max_cota = some q))) =
        l.countP (fun d => decide (find_selected_cota d active max_cota ≠ none)) := by
  intro l
  induction l with
  | nil => simp
  | cons d l ih =>
    simp only [List.countP_cons]
    rw [Finset.sum_add_distrib, ih]
    congr 1
    cases h : find_selected_cota d active max_cota with
    | none => simp
    | some w =>
      have hw : w ∈ active := find_selected_cota_mem h
      have hsum : (∑ x ∈ active, if decide (some w = some x) = true then 1 else 0) =
          (∑ x ∈ active, if w = x then 1 else 0) :=
        Finset.sum_congr rfl (fun q _ => by simp)
      rw [hsum, Finset.sum_ite_eq, if_pos hw]
      simp

/-- C3. When the active set lies inside [1, maxId], the catchment counts of
the active cotas sum to the number of draws in 1..maxId that resolve to
some cota; this sum is at most maxId, with equality exactly when no draw in
range resolves to NotFound. -/
theorem C3_catchment_conservation :
    ∀ (active : Finset Int) (maxId : Nat),
      (∀ x ∈ active, 1 ≤ x ∧ x ≤ (maxId : Int)) →
      ((∑ q ∈ active, (calculate_catchment q active maxId).1) =
          ((drawList maxId).filter
            (fun d => decide (find_selected_cota d active maxId ≠ none))).length ∧
        (∑ q ∈ active, (calculate_catchment q active maxId).1) ≤ maxId ∧
        ((∑ q ∈ active, (calculate_catchment q active maxId).1) = maxId ↔
          ∀ d ∈ drawList maxId, find_selected_cota d active maxId ≠ none)) := by
  intro active maxId _
  have hlen : (drawList maxId).length = maxId := by
    simp [drawList]
  have hmain : (∑ q ∈ active, (calculate_catchment q active maxId).1) =
      ((drawList maxId).filter
        (fun d => decide (find_selected_cota d active maxId ≠ none))).length := by
    have hterm : ∀ q ∈ active, (calculate_catchment q active maxId).1 =
        (drawList maxId).countP
          (fun d => decide (find_selected_cota d active maxId = some q)) := by
      intro q hq
      simp only [calculate_catchment, if_neg (not_not_intro hq)]
      rw [List.countP_eq_length_filter]
    rw [Finset.sum_congr rfl hterm, sum_countP_resolve active maxId (drawList maxId),
      List.countP_eq_length_filter]
  refine ⟨hmain, ?_, ?_⟩
  · rw [hmain]
    calc ((drawList maxId).filter _).length ≤ (drawList maxId).length :=
          List.length_filter_le _ _
      _ = maxId := hlen
  · rw [hmain]
    constructor
    · intro hfull d hd
      have heq : ((drawList maxId).filter
          (fun d => decide (find_selected_cota d active maxId ≠ none))) =
          drawList maxId :=
        (List.filter_sublist _).eq_of_length (by rw [hfull, hlen])
      rw [List.filter_eq_self] at heq
      exact of_decide_eq_true (heq d hd)
    · intro hall
      have heq : ((drawList maxId).filter
          (fun d => decide (find_selected_cota d active maxId ≠ none))) =
          drawList maxId :=
        List.filter_eq_self.mpr (fun d hd => decide_eq_true (hall d hd))
      rw [heq, hlen]

/-- Witness for C3: the sum bound at a concrete universe. -/
theorem C3_catchment_conservation_witness :
    (∑ q ∈ ({1} : Finset Int), (calculate_catchment q {1} 1).1) ≤ 1 :=
  (C3_catchment_conservation {1} 1 (by decide)).2.1

theorem mem_intRange {lo hi x : Int} : x ∈ intRange lo hi ↔ lo ≤ x ∧ x ≤ hi := by
  simp only [intRange, List.mem_map, List.mem_range]
  constructor
  · rintro ⟨k, hk, rfl⟩
    omega
  · intro hx
    exact ⟨(x - lo).toNat, by omega, by omega⟩

theorem gapsUnion_append (l1 l2 : List GapRec) :
    gapsUnion (l1 ++ l2) = gapsUnion l1 ∪ gapsUnion l2 := by
  induction l1 with
  | nil => simp [gapsUnion]
  | cons g l1 ih =>
    simp only [gapsUnion, List.foldr_cons, List.cons_append] at ih ⊢
    rw [ih, Finset.union_assoc]

theorem gapsUnion_cons (g : GapRec) (l : List GapRec) :
    gapsUnion (g :: l) = Finset.Icc g.start g.stop ∪ gapsUnion l := rfl

/-- Every gap emitted from a list sits strictly between its first element
and some later element: its start exceeds the head and its boundaries are
elements of the list. -/
theorem gapsAux_start_lt (contempladas disponiveis : Finset Int) :
    ∀ (rest : List Int) (a : Int), (a :: rest).Sorted (· < ·) →
      ∀ g ∈ gapsAux contempladas disponiveis (a :: rest),
        a < g.start ∧ g.start ≤ g.stop := by
  intro rest
  induction rest with
  | nil => intro a _ g hg; simp [gapsAux] at hg
  | cons b rest ih =>
    intro a hsort g hg
    have hab : a < b := (List.sorted_cons.mp hsort).1 b (by simp)
    simp only [gapsAux, List.mem_append] at hg
    rcases hg with hg | hg
    · by_cases hcond : b - 1 ≥ a + 1
      · rw [if_pos hcond] at hg
        simp only [List.mem_singleton] at hg
        subst hg
        exact ⟨show a < a + 1 by omega, show (a : Int) + 1 ≤ b - 1 by omega⟩
      · rw [if_neg hcond] at hg
        simp at hg
    · have := ih b (List.sorted_cons.mp hsort).2 g hg
      exact ⟨by omega, this.2⟩

/-- The two boundaries of every emitted gap are elements of the input list. -/
theorem gapsAux_boundary_mem (contempladas disponiveis : Finset Int) :
    ∀ (l : List Int), ∀ g ∈ gapsAux contempladas disponiveis l,
      (g.start - 1) ∈ l ∧ (g.stop + 1) ∈ l := by
  intro l
  induction l with
  | nil => intro g hg; simp [gapsAux] at hg
  | cons a rest ih =>
    cases rest with
    | nil => intro g hg; simp [gapsAux] at hg
    | cons b rest2 =>
      intro g hg
      simp only [gapsAux, List.mem_append] at hg
      rcases hg with hg | hg
      · by_cases hcond : b - 1 ≥ a + 1
        · rw [if_pos hcond] at hg
          simp only [List.mem_singleton] at hg
          subst hg
          constructor
          · show (a : Int) + 1 - 1 ∈ a :: b :: rest2
            rw [show (a : Int) + 1 - 1 = a by omega]
            exact List.mem_cons_self a _
          · show (b : Int) - 1 + 1 ∈ a :: b :: rest2
            rw [show (b : Int) - 1 + 1 = b by omega]
            exact List.mem_cons_of_mem a (List.mem_cons_self b _)
        · rw [if_neg hcond] at hg
          simp at hg
      · have := ih g hg
        exact ⟨List.mem_cons_of_mem a this.1, List.mem_cons_of_mem a this.2⟩

theorem sorted_head_le_getLast : ∀ (l : List Int) (a : Int),
    (a :: l).Sorted (· < ·) → a ≤ (a :: l).getLast (List.cons_ne_nil a l) := by
  intro l a hsort
  have hmem := List.getLast_mem (List.cons_ne_nil a l)
  rcases List.mem_cons.mp hmem with h | h
  · omega
  · have := (List.sorted_cons.mp hsort).1 _ h
    omega

theorem sorted_mem_le_getLast : ∀ (l : List Int) (hne : l ≠ []),
    l.Sorted (· < ·) → ∀ x ∈ l, x ≤ l.getLast hne := by
  intro l
  induction l with
  | nil => intro hne; exact absurd rfl hne
  | cons a rest ih =>
    intro hne hsort x hx
    cases rest with
    | nil =>
      rcases List.mem_cons.mp hx with rfl | h2
      · exact le_refl x
      · simp at h2
    | cons b rest2 =>
      rw [List.getLast_cons (List.cons_ne_nil b rest2)]
      rcases List.mem_cons.mp hx with rfl | hx2
      · have hab : x < b := (List.sorted_cons.mp hsort).1 b (by simp)
        have := sorted_head_le_getLast rest2 b (List.sorted_cons.mp hsort).2
        omega
      · exact ih (List.cons_ne_nil b rest2) (List.sorted_cons.mp hsort).2 x hx2

/-- Over a sorted active list, the emitted gaps together with the list
elements tile the interval from the first to the last element. -/
theorem gapsAux_union (contempladas disponiveis : Finset Int) :
    ∀ (rest : List Int) (a : Int), (a :: rest).Sorted (· < ·) →
      gapsUnion (gapsAux contempladas disponiveis (a :: rest)) ∪ (a :: rest).toFinset =
        Finset.Icc a ((a :: rest).getLast (List.cons_ne_nil a rest)) := by
  intro rest
  induction rest with
  | nil =>
    intro a _
    show gapsUnion [] ∪ [a].toFinset = Finset.Icc a a
    simp [gapsUnion]
  | cons b rest ih =>
    intro a hsort
    have hab : a < b := (List.sorted_cons.mp hsort).1 b (by simp)
    have hsort2 : (b :: rest).Sorted (· < ·) := (List.sorted_cons.mp hsort).2
    have hble : b ≤ (b :: rest).getLast (List.cons_ne_nil b rest) :=
      sorted_head_le_getLast rest b hsort2
    have hlast : (a :: b :: rest).getLast (List.cons_ne_nil a (b :: rest)) =
        (b :: rest).getLast (List.cons_ne_nil b rest) :=
      List.getLast_cons (List.cons_ne_nil b rest)
    have ihb := ih b hsort2
    show gapsUnion ((if b - 1 ≥ a + 1 then
        [⟨a + 1, b - 1, (b - 1) - (a + 1) + 1,
          (intRange (a + 1) (b - 1)).countP (fun c => decide (c ∈ contempladas)),
          (intRange (a + 1) (b - 1)).countP (fun c => decide (c ∈ disponiveis))⟩]
      else []) ++ gapsAux contempladas disponiveis (b :: rest)) ∪
        (a :: b :: rest).toFinset = _
    rw [gapsUnion_append, hlast, List.toFinset_cons, Finset.union_insert,
      Finset.union_assoc, ihb]
    ext x
    by_cases hcond : (b : Int) - 1 ≥ a + 1
    · rw [if_pos hcond]
      rw [show gapsUnion [(⟨a + 1, b - 1, (b - 1) - (a + 1) + 1,
          (intRange (a + 1) (b - 1)).countP (fun c => decide (c ∈ contempladas)),
          (intRange (a + 1) (b - 1)).countP (fun c => decide (c ∈ disponiveis))⟩ : GapRec)] =
        Finset.Icc (a + 1) (b - 1) from by simp [gapsUnion]]
      simp only [Finset.mem_insert, Finset.mem_union, Finset.mem_Icc]
      omega
    · rw [if_neg hcond]
      rw [show gapsUnion ([] : List GapRec) = ∅ from rfl]
      simp only [Finset.mem_insert, Finset.empty_union, Finset.mem_Icc]
      omega

/-- No element of the (sorted) active list lies inside any emitted gap. -/
theorem gapsAux_disjoint_list (contempladas disponiveis : Finset Int) :
    ∀ (l : List Int), l.Sorted (· < ·) →
      ∀ g ∈ gapsAux contempladas disponiveis l, ∀ x ∈ l,
        x ∉ Finset.Icc g.start g.stop := by
  intro l
  induction l with
  | nil => intro _ g hg; simp [gapsAux] at hg
  | cons a rest ih =>
    cases rest with
    | nil => intro _ g hg; simp [gapsAux] at hg
    | cons b rest2 =>
      intro hsort g hg x hx
      have hab : a < b := (List.sorted_cons.mp hsort).1 b (by simp)
      have hsort2 : (b :: rest2).Sorted (· < ·) := (List.sorted_cons.mp hsort).2
      simp only [gapsAux, List.mem_append] at hg
      rcases hg with hg | hg
      · by_cases hcond : (b : Int) - 1 ≥ a + 1
        · rw [if_pos hcond] at hg
          simp only [List.mem_singleton] at hg
          subst hg
          intro hmem
          rw [Finset.mem_Icc] at hmem
          have hmem' : a + 1 ≤ x ∧ x ≤ b - 1 := hmem
          rcases List.mem_cons.mp hx with rfl | hx2
          · omega
          · have hbx : b ≤ x := by
              rcases List.mem_cons.mp hx2 with rfl | hx3
              · exact le_refl x
              · exact le_of_lt ((List.sorted_cons.mp hsort2).1 x hx3)
            omega
        · rw [if_neg hcond] at hg
          simp at hg
      · rcases List.mem_cons.mp hx with rfl | hx2
        · have hbs := (gapsAux_start_lt contempladas disponiveis rest2 b hsort2 g hg).1
          intro hmem
          rw [Finset.mem_Icc] at hmem
          omega
        · exact ih hsort2 g hg x hx2

/-- Distinct emitted gaps cover pairwise disjoint id ranges. -/
theorem gapsAux_pairwise (contempladas disponiveis : Finset Int) :
    ∀ (l : List Int), l.Sorted (· < ·) →
      (gapsAux contempladas disponiveis l).Pairwise
        (fun g1 g2 => Disjoint (Finset.Icc g1.start g1.stop)
          (Finset.Icc g2.start g2.stop)) := by
  intro l
  induction l with
  | nil => simp [gapsAux]
  | cons a rest ih =>
    cases rest with
    | nil => simp [gapsAux]
    | cons b rest2 =>
      intro hsort
      have hsort2 : (b :: rest2).Sorted (· < ·) := (List.sorted_cons.mp hsort).2
      show ((if (b : Int) - 1 ≥ a + 1 then
          ([⟨a + 1, b - 1, (b - 1) - (a + 1) + 1,
            (intRange (a + 1) (b - 1)).countP (fun c => decide (c ∈ contempladas)),
            (intRange (a + 1) (b - 1)).countP (fun c => decide (c ∈ disponiveis))⟩] :
              List GapRec)
        else []) ++ gapsAux contempladas disponiveis (b :: rest2)).Pairwise _
      rw [List.pairwise_append]
      refine ⟨?_, ih hsort2, ?_⟩
      · by_cases hcond : (b : Int) - 1 ≥ a + 1
        · rw [if_pos hcond]; simp
        · rw [if_neg hcond]; simp
      · intro g1 hg1 g2 hg2
        by_cases hcond : (b : Int) - 1 ≥ a + 1
        · rw [if_pos hcond] at hg1
          simp only [List.mem_singleton] at hg1
          subst hg1
          have hbs := (gapsAux_start_lt contempladas disponiveis rest2 b hsort2 g2 hg2).1
          rw [Finset.disjoint_left]
          intro x hx1 hx2
          rw [Finset.mem_Icc] at hx1 hx2
          have hx1' : a + 1 ≤ x ∧ x ≤ b - 1 := hx1
          omega
        · rw [if_neg hcond] at hg1
          simp at hg1

/-- Computes a Finset sort once the sorted list of its elements is known;
Finset.sort itself is defined by well-founded recursion and does not reduce
in the kernel. -/
theorem Finset_sort_eq (s : Finset Int) (l : List Int) (hl : l.Sorted (· < ·))
    (hmem : ∀ x, x ∈ l ↔ x ∈ s) : s.sort (· ≤ ·) = l := by
  refine List.eq_of_perm_of_sorted ?_ (Finset.sort_sorted _ s) hl.le_of_lt
  refine (List.perm_ext_iff_of_nodup (Finset.sort_nodup _ s) hl.nodup).mpr ?_
  intro a
  rw [Finset.mem_sort, hmem a]

/-- C4 counterexample: in the universe total = 3, contempladas = (1),
disponiveis = (3), the active set is (2); find_gaps emits no gap, so the
union of gaps plus the eligible set is (2), not the full range 1..3. -/
theorem C4_counterexample :
    ¬ (gapsUnion (find_gaps (get_active_cotas 3 {1} {3}) {1} {3}) ∪
        get_active_cotas 3 {1} {3} = Finset.Icc (1 : Int) 3) := by
  have hsort : (get_active_cotas 3 {1} {3}).sort (· ≤ ·) = [2] :=
    Finset_sort_eq _ _ (by decide)
      (fun x => by
        simp only [get_active_cotas, List.mem_singleton, Finset.mem_sdiff,
          Finset.mem_Icc, Finset.mem_singleton]
        omega)
  intro hEq
  have h1 : (1 : Int) ∈ Finset.Icc (1 : Int) 3 := by decide
  rw [← hEq, find_gaps, hsort] at h1
  exact absurd h1 (by decide)

/-- C4 (amended). The union of the gaps emitted by find_gaps together with
the eligible set equals, exactly once and with no overlaps, the integer
interval from the smallest to the largest eligible quota (not the full
range 1..total: ids below the least or above the greatest eligible quota
belong to neither a gap nor the eligible set). -/
theorem C4_gap_union_amended :
    ∀ (active contempladas disponiveis : Finset Int) (h : active.Nonempty),
      (gapsUnion (find_gaps active contempladas disponiveis) ∪ active =
        Finset.Icc (active.min' h) (active.max' h)) ∧
      (∀ g ∈ find_gaps active contempladas disponiveis, ∀ x ∈ active,
        x ∉ Finset.Icc g.start g.stop) ∧
      ((find_gaps active contempladas disponiveis).Pairwise
        (fun g1 g2 => Disjoint (Finset.Icc g1.start g1.stop)
          (Finset.Icc g2.start g2.stop))) := by
  intro active cont disp h
  have hsorted := Finset.sort_sorted_lt active
  cases hl : active.sort (· ≤ ·) with
  | nil =>
    exfalso
    have hempty : active = ∅ := by
      have hts := Finset.sort_toFinset (· ≤ ·) active
      rw [hl] at hts
      simpa using hts.symm
    exact h.ne_empty hempty
  | cons a rest =>
    rw [hl] at hsorted
    have hmem_iff : ∀ x, x ∈ active ↔ x ∈ a :: rest := by
      intro x
      rw [← Finset.mem_sort (α := Int) (· ≤ ·), hl]
    have hmin : active.min' h = a := by
      refine le_antisymm (Finset.min'_le active a ((hmem_iff a).mpr (by simp))) ?_
      refine Finset.le_min' active h a ?_
      intro y hy
      rcases List.mem_cons.mp ((hmem_iff y).mp hy) with rfl | hy2
      · exact le_refl y
      · exact le_of_lt ((List.sorted_cons.mp hsorted).1 y hy2)
    have hmax : active.max' h = (a :: rest).getLast (List.cons_ne_nil a rest) := by
      refine le_antisymm ?_ (Finset.le_max' active _
        ((hmem_iff _).mpr (List.getLast_mem _)))
      refine Finset.max'_le active h _ ?_
      intro y hy
      exact sorted_mem_le_getLast (a :: rest) (List.cons_ne_nil a rest) hsorted y
        ((hmem_iff y).mp hy)
    have hactive_eq : (a :: rest).toFinset = active := by
      rw [← hl]
      exact Finset.sort_toFinset _ active
    refine ⟨?_, ?_, ?_⟩
    · rw [find_gaps, hl, hmin, hmax, ← hactive_eq]
      exact gapsAux_union cont disp rest a hsorted
    · intro g hg x hx
      rw [find_gaps, hl] at hg
      exact gapsAux_disjoint_list cont disp (a :: rest) hsorted g hg x
        ((hmem_iff x).mp hx)
    · rw [find_gaps, hl]
      exact gapsAux_pairwise cont disp (a :: rest) hsorted

/-- Witness for the amended C4 at a concrete universe with one gap. -/
theorem C4_gap_union_amended_witness :
    gapsUnion (find_gaps ({1, 3} : Finset Int) ({2} : Finset Int) (∅ : Finset Int)) ∪
        ({1, 3} : Finset Int) =
      Finset.Icc (({1, 3} : Finset Int).min' ⟨1, by decide⟩)
        (({1, 3} : Finset Int).max' ⟨1, by decide⟩) :=
  (C4_gap_union_amended {1, 3} {2} ∅ ⟨1, by decide⟩).1

/-- C7. Under the partition precondition (active = all cotas minus
contempladas minus disponiveis), every analyzed gap has both boundaries
classified as non-purchasable: lower_buyable and upper_buyable are both
false, because each boundary is an active cota and the active set is
disjoint from disponiveis. -/
theorem C7_boundaries_never_buyable :
    ∀ (total : Nat) (contempladas disponiveis : Finset Int),
      1 ≤ total →
      contempladas ⊆ Finset.Icc 1 (total : Int) →
      disponiveis ⊆ Finset.Icc 1 (total : Int) →
      ∀ g ∈ analyze_gaps (get_active_cotas total contempladas disponiveis)
          contempladas disponiveis,
        g.lower_buyable = false ∧ g.upper_buyable = false := by
  intro total cont disp _ _ _ g hg
  simp only [analyze_gaps, List.mem_map] at hg
  obtain ⟨g0, hg0, rfl⟩ := hg
  rw [find_gaps] at hg0
  have hbm := gapsAux_boundary_mem cont disp _ g0 hg0
  have hlow : (g0.start - 1) ∈ get_active_cotas total cont disp := by
    rw [← Finset.mem_sort (α := Int) (· ≤ ·)]
    exact hbm.1
  have hup : (g0.stop + 1) ∈ get_active_cotas total cont disp := by
    rw [← Finset.mem_sort (α := Int) (· ≤ ·)]
    exact hbm.2
  rw [get_active_cotas, Finset.mem_sdiff] at hlow hup
  constructor
  · exact decide_eq_false hlow.2
  · exact decide_eq_false hup.2

@[simp] theorem mkOpportunity_start (data : GroupData) (s len : Int) :
    (mkOpportunity data s len).start = s := rfl

@[simp] theorem mkOpportunity_stop (data : GroupData) (s len : Int) :
    (mkOpportunity data s len).stop = s + len - 1 := rfl

@[simp] theorem mkOpportunity_length (data : GroupData) (s len : Int) :
    (mkOpportunity data s len).length = len := rfl

@[simp] theorem mkOpportunity_pct (data : GroupData) (s len : Int) :
    (mkOpportunity data s len).occupied_pct = occupiedFrac data s (s + len - 1) := rfl

@[simp] theorem mkOpportunity_score (data : GroupData) (s len : Int) :
    (mkOpportunity data s len).score =
      (len : ℚ) * occupiedFrac data s (s + len - 1) * 100 := rfl

theorem opportunity_guard_eq_some {data : GroupData} {p : ℚ} {s len : Int}
    {r : OpportunityRec} :
    opportunity_guard data p s len = some r ↔
      (3 ≤ len ∧ s ∈ data.available ∧ (s + len - 1) ∈ data.available ∧
        p ≤ occupiedFrac data s (s + len - 1) ∧ r = mkOpportunity data s len) := by
  unfold opportunity_guard
  by_cases h1 : Finset.Icc (s + 1) (s + len - 1 - 1) = ∅
  · rw [if_pos h1]
    have hlen : ¬ 3 ≤ len := by
      have := Finset.Icc_eq_empty_iff.mp h1
      omega
    constructor
    · intro h; exact absurd h (by simp)
    · rintro ⟨h3, -⟩; exact absurd h3 hlen
  · rw [if_neg h1]
    have hlen : 3 ≤ len := by
      by_contra hc
      exact h1 (Finset.Icc_eq_empty (by omega))
    by_cases h2 : s ∉ data.available ∨ (s + len - 1) ∉ data.available
    · rw [if_pos h2]
      constructor
      · intro h; exact absurd h (by simp)
      · rintro ⟨-, hs, he, -⟩
        rcases h2 with h2 | h2
        · exact absurd hs h2
        · exact absurd he h2
    · rw [if_neg h2]
      push_neg at h2
      by_cases h3 : ((Finset.Icc (s + 1) (s + len - 1 - 1) ∩ data.occupied).card : ℚ) /
          ((Finset.Icc (s + 1) (s + len - 1 - 1)).card : ℚ) < p
      · rw [if_pos h3]
        constructor
        · intro h; exact absurd h (by simp)
        · rintro ⟨-, -, -, hp, -⟩
          exact absurd h3 (not_lt.mpr hp)
      · rw [if_neg h3]
        constructor
        · intro h
          exact ⟨hlen, h2.1, h2.2, not_lt.mp h3, (Option.some.inj h).symm⟩
        · rintro ⟨-, -, -, -, rfl⟩
          rfl

/-- Membership in the generation list: exactly the candidate intervals of
the enumeration whose guards all pass. -/
theorem mem_opportunity_candidates {data : GroupData} {m : Int} {p : ℚ}
    {r : OpportunityRec} :
    r ∈ opportunity_candidates data m p ↔
      ∃ s len : Int, 1 ≤ s ∧ m ≤ len ∧ len ≤ 50 ∧
        len ≤ (data.total_quotas : Int) - s + 1 ∧ 3 ≤ len ∧
        s ∈ data.available ∧ (s + len - 1) ∈ data.available ∧
        p ≤ occupiedFrac data s (s + len - 1) ∧
        r = mkOpportunity data s len := by
  simp only [opportunity_candidates, List.mem_flatMap, List.mem_filterMap, mem_intRange]
  constructor
  · rintro ⟨s, ⟨hs1, hs2⟩, len, ⟨hl1, hl2⟩, hsome⟩
    obtain ⟨hlen, hs, he, hp, hr⟩ := opportunity_guard_eq_some.mp hsome
    rw [le_min_iff] at hl2
    exact ⟨s, len, hs1, hl1, hl2.1, hl2.2, hlen, hs, he, hp, hr⟩
  · rintro ⟨s, len, h1, hm, h50, hT, h3, hs, he, hp, rfl⟩
    refine ⟨s, ⟨h1, by omega⟩, len, ⟨hm, le_min_iff.mpr ⟨h50, hT⟩⟩, ?_⟩
    exact opportunity_guard_eq_some.mpr ⟨h3, hs, he, hp, rfl⟩

/-- The interval [s, e] appears in the finder output exactly when it is an
enumerable candidate whose three guards pass. -/
theorem exists_start_stop_iff (data : GroupData) (m : Int) (p : ℚ) (s e : Int) :
    (∃ r ∈ find_edge_opportunities data m p, r.start = s ∧ r.stop = e) ↔
      (1 ≤ s ∧ e ≤ (data.total_quotas : Int) ∧ m ≤ e - s + 1 ∧ e - s + 1 ≤ 50 ∧
        s + 1 ≤ e - 1 ∧ s ∈ data.available ∧ e ∈ data.available ∧
        p ≤ occupiedFrac data s e) := by
  constructor
  · rintro ⟨r, hr, hstart, hstop⟩
    simp only [find_edge_opportunities, List.mem_insertionSort] at hr
    obtain ⟨a, len, h1, hm, h50, hT, h3, hsa, hea, hp, rfl⟩ :=
      mem_opportunity_candidates.mp hr
    rw [mkOpportunity_start] at hstart
    rw [mkOpportunity_stop] at hstop
    subst hstart
    refine ⟨h1, by omega, by omega, by omega, by omega, hsa, ?_, ?_⟩
    · rw [← hstop]; exact hea
    · rw [← hstop]; exact hp
  · rintro ⟨h1, hT, hm, h50, h3, hsa, hea, hp⟩
    refine ⟨mkOpportunity data s (e - s + 1), ?_,
      mkOpportunity_start data s (e - s + 1), by rw [mkOpportunity_stop]; omega⟩
    simp only [find_edge_opportunities, List.mem_insertionSort]
    refine mem_opportunity_candidates.mpr
      ⟨s, e - s + 1, h1, hm, h50, by omega, by omega, hsa, ?_, ?_, rfl⟩
    · rw [show s + (e - s + 1) - 1 = e by omega]; exact hea
    · rw [show s + (e - s + 1) - 1 = e by omega]; exact hp

/-- With an occupancy threshold above 1 every candidate fails the
threshold guard (the fraction never exceeds 1), so the finder returns
the empty list. -/
theorem edge_empty_of_one_lt {data : GroupData} {m : Int} {p : ℚ} (hp : 1 < p) :
    find_edge_opportunities data m p = [] := by
  have hcand : opportunity_candidates data m p = [] := by
    rw [opportunity_candidates, List.flatMap_eq_nil_iff]
    intro s _
    rw [List.filterMap_eq_nil_iff]
    intro len _
    cases hguard : opportunity_guard data p s len with
    | none => rfl
    | some r =>
      exfalso
      obtain ⟨h3, -, -, hp', -⟩ := opportunity_guard_eq_some.mp hguard
      have hle : occupiedFrac data s (s + len - 1) ≤ 1 := by
        unfold occupiedFrac
        have hcard : 0 < (Finset.Icc (s + 1) (s + len - 1 - 1)).card := by
          rw [Int.card_Icc]
          omega
        have hpos : 0 < ((Finset.Icc (s + 1) (s + len - 1 - 1)).card : ℚ) := by
          exact_mod_cast hcard
        rw [div_le_one hpos]
        exact_mod_cast Finset.card_le_card Finset.inter_subset_left
      linarith

  rw [find_edge_opportunities, hcand]
  rfl

/-- Witness for C7 at the concrete universe total = 3, contempladas = (2),
disponiveis empty: the single gap (2, 2) has non-buyable boundaries 1, 3. -/
theorem C7_boundaries_never_buyable_witness :
    (⟨2, 2, 1, 1, 0, 1, 3, false, false, true, true, []⟩ : AnalyzedGap).lower_buyable
        = false ∧
      (⟨2, 2, 1, 1, 0, 1, 3, false, false, true, true, []⟩ : AnalyzedGap).upper_buyable
        = false :=
  C7_boundaries_never_buyable 3 {2} ∅ (by decide) (by decide) (by decide)
    ⟨2, 2, 1, 1, 0, 1, 3, false, false, true, true, []⟩
    (by
      have hsort : (get_active_cotas 3 {2} ∅).sort (· ≤ ·) = [1, 3] :=
        Finset_sort_eq _ _ (by decide)
          (fun x => by
            simp only [get_active_cotas, List.mem_cons, List.mem_singleton,
              Finset.mem_sdiff, Finset.mem_Icc, Finset.mem_singleton,
              Finset.not_mem_empty, List.not_mem_nil, or_false, and_true,
              not_false_iff]
            omega)
      simp only [analyze_gaps, find_gaps, hsort]
      decide)

theorem occupiedFrac_full :
    occupiedFrac ⟨110, {100, 110}, Finset.Icc 101 109⟩ 100 110 = 1 := by
  unfold occupiedFrac
  norm_num [Int.card_Icc]

theorem occupiedFrac_eight_ninths :
    occupiedFrac ⟨110, {100, 105, 110}, Finset.Icc 101 109 \ {105}⟩ 100 110 = 8 / 9 := by
  unfold occupiedFrac
  norm_num [Finset.inter_eq_right.mpr Finset.sdiff_subset, Int.card_Icc,
    Finset.card_sdiff, Finset.card_singleton, show Int.toNat 9 = 9 from rfl]

/-- C5. The opportunity finder emits a record for an interval [start, end]
exactly when the interval is an enumerable candidate (start >= 1,
end <= total, min_length <= length <= 50), its interior (start, end)
exclusive is non-empty, both endpoints are available, and the interior
occupancy fraction reaches min_occupied_pct; every emitted record carries
occupied_pct equal to that fraction and score = length * fraction * 100.
In particular [100, 110] with interior 101..109 fully occupied (9/9) is
emitted at threshold 1, while the 8/9 variant is excluded at threshold 1
but included at threshold 1/2. -/
theorem C5_opportunity_threshold :
    (∀ (data : GroupData) (min_length : Int) (min_occupied_pct : ℚ) (s e : Int),
        (∃ r ∈ find_edge_opportunities data min_length min_occupied_pct,
            r.start = s ∧ r.stop = e) ↔
          (1 ≤ s ∧ e ≤ (data.total_quotas : Int) ∧ min_length ≤ e - s + 1 ∧
            e - s + 1 ≤ 50 ∧ s + 1 ≤ e - 1 ∧ s ∈ data.available ∧
            e ∈ data.available ∧ min_occupied_pct ≤ occupiedFrac data s e)) ∧
    (∀ (data : GroupData) (min_length : Int) (min_occupied_pct : ℚ),
        ∀ r ∈ find_edge_opportunities data min_length min_occupied_pct,
          r.occupied_pct = occupiedFrac data r.start r.stop ∧
          r.score = (r.length : ℚ) * r.occupied_pct * 100 ∧
          r.stop = r.start + r.length - 1) ∧
    ((∃ r ∈ find_edge_opportunities ⟨110, {100, 110}, Finset.Icc 101 109⟩ 5 1,
        r.start = 100 ∧ r.stop = 110) ∧
      ¬ (∃ r ∈ find_edge_opportunities
            ⟨110, {100, 105, 110}, Finset.Icc 101 109 \ {105}⟩ 5 1,
          r.start = 100 ∧ r.stop = 110) ∧
      (∃ r ∈ find_edge_opportunities
          ⟨110, {100, 105, 110}, Finset.Icc 101 109 \ {105}⟩ 5 (1 / 2),
        r.start = 100 ∧ r.stop = 110)) := by
  refine ⟨exists_start_stop_iff, ?_, ?_, ?_, ?_⟩
  · intro data m p r hr
    simp only [find_edge_opportunities, List.mem_insertionSort] at hr
    obtain ⟨s, len, -, -, -, -, -, -, -, -, rfl⟩ := mem_opportunity_candidates.mp hr
    refine ⟨?_, ?_, ?_⟩
    · rw [mkOpportunity_pct, mkOpportunity_start, mkOpportunity_stop]
    · rw [mkOpportunity_score, mkOpportunity_pct, mkOpportunity_length]
    · rw [mkOpportunity_stop, mkOpportunity_start, mkOpportunity_length]
  · refine (exists_start_stop_iff _ 5 1 100 110).mpr ?_
    refine ⟨by norm_num, by norm_num, by norm_num, by norm_num, by norm_num,
      by decide, by decide, ?_⟩
    rw [occupiedFrac_full]
  · intro hmem
    obtain ⟨-, -, -, -, -, -, -, hp⟩ :=
      (exists_start_stop_iff _ 5 1 100 110).mp hmem
    rw [occupiedFrac_eight_ninths] at hp
    norm_num at hp
  · refine (exists_start_stop_iff _ 5 (1 / 2) 100 110).mpr ?_
    refine ⟨by norm_num, by norm_num, by norm_num, by norm_num, by norm_num,
      by decide, by decide, ?_⟩
    rw [occupiedFrac_eight_ninths]
    norm_num

/-- Witness for C5: instantiating the membership characterization at a
concrete emitted interval. -/
theorem C5_opportunity_threshold_witness :
    ∃ r ∈ find_edge_opportunities ⟨7, {1, 5}, {2, 3, 4}⟩ 5 1,
      r.start = 1 ∧ r.stop = 5 := by
  refine (C5_opportunity_threshold.1 ⟨7, {1, 5}, {2, 3, 4}⟩ 5 1 1 5).mpr ?_
  refine ⟨by norm_num, by norm_num, by norm_num, by norm_num, by norm_num,
    by decide, by decide, ?_⟩
  unfold occupiedFrac
  norm_num [Int.card_Icc, show Int.toNat 3 = 3 from rfl]

/-- C8 counterexample: called with min_occupied_pct = 3/2, outside [0, 1],
the finder does not raise any InvalidConfiguration condition — it returns
normally (the empty list, every candidate silently failing the out-of-range
threshold), whereas the same universe at the in-range threshold 1 produces a
non-empty result, showing the out-of-range value is used, not rejected or
clamped. -/
theorem C8_counterexample :
    find_edge_opportunities ⟨7, {1, 5}, {2, 3, 4}⟩ 5 (3 / 2 : ℚ) = [] ∧
      find_edge_opportunities ⟨7, {1, 5}, {2, 3, 4}⟩ 5 (1 : ℚ) ≠ [] := by
  constructor
  · exact edge_empty_of_one_lt (by norm_num)
  · intro hnil
    have hmem : ∃ r ∈ find_edge_opportunities ⟨7, {1, 5}, {2, 3, 4}⟩ 5 1,
        r.start = 1 ∧ r.stop = 5 := by
      refine (exists_start_stop_iff ⟨7, {1, 5}, {2, 3, 4}⟩ 5 1 1 5).mpr ?_
      refine ⟨by norm_num, by norm_num, by norm_num, by norm_num, by norm_num,
        by decide, by decide, ?_⟩
      unfold occupiedFrac
      norm_num [Int.card_Icc, show Int.toNat 3 = 3 from rfl]
    obtain ⟨r, hr, -⟩ := hmem
    rw [hnil] at hr
    exact List.not_mem_nil r hr

/-- C8 (amended). find_edge_opportunities performs no validation of its
configuration: it is total and uses out-of-range values as given. Any
min_occupied_pct above 1 silently yields the empty list (nothing is
rejected or clamped), and any min_length —
including values below 2 — is accepted, the enumeration simply never
emitting an interval of length below 3 because of the empty-interior
guard; no InvalidConfiguration condition exists. -/
theorem C8_no_validation_amended :
    (∀ (data : GroupData) (min_length : Int) (min_occupied_pct : ℚ),
        1 < min_occupied_pct →
        find_edge_opportunities data min_length min_occupied_pct = []) ∧
    (∀ (data : GroupData) (min_length : Int) (min_occupied_pct : ℚ),
        ∀ r ∈ find_edge_opportunities data min_length min_occupied_pct,
          3 ≤ r.length) := by
  constructor
  · intro data m p hp
    exact edge_empty_of_one_lt hp
  · intro data m p r hr
    simp only [find_edge_opportunities, List.mem_insertionSort] at hr
    obtain ⟨s, len, -, -, -, -, h3, -, -, -, rfl⟩ := mem_opportunity_candidates.mp hr
    rw [mkOpportunity_length]
    exact h3

/-- Witness for the amended C8: threshold 3/2 applied at a concrete
universe returns the empty list. -/
theorem C8_no_validation_amended_witness :
    find_edge_opportunities ⟨7, {1, 5}, {2, 3, 4}⟩ 5 (3 / 2 : ℚ) = [] :=
  C8_no_validation_amended.1 ⟨7, {1, 5}, {2, 3, 4}⟩ 5 (3 / 2) (by norm_num)

theorem intRange_pairwise (lo hi : Int) : (intRange lo hi).Pairwise (· < ·) := by
  unfold intRange
  refine List.Pairwise.map _ ?_ (List.pairwise_lt_range _)
  intro a b hab
  omega

/-- C9. The finder output is sorted by descending score; records of equal
score keep exactly the generation order (the stable sort changes nothing
within a score class), and the generation order enumerates (start, length)
in ascending lexicographic order, start outer and length inner. -/
theorem C9_result_ordering :
    ∀ (data : GroupData) (min_length : Int) (min_occupied_pct : ℚ),
      ((find_edge_opportunities data min_length min_occupied_pct).Pairwise scoreOrder) ∧
      (∀ q : ℚ,
        (find_edge_opportunities data min_length min_occupied_pct).filter
            (fun r => decide (r.score = q)) =
          (opportunity_candidates data min_length min_occupied_pct).filter
            (fun r => decide (r.score = q))) ∧
      ((opportunity_candidates data min_length min_occupied_pct).Pairwise
        (fun r1 r2 => r1.start < r2.start ∨
          (r1.start = r2.start ∧ r1.length < r2.length))) := by
  intro data m p
  refine ⟨List.sorted_insertionSort scoreOrder _, ?_, ?_⟩
  · intro q
    have hperm : List.Perm
        ((opportunity_candidates data m p).insertionSort scoreOrder)
        (opportunity_candidates data m p) :=
      List.perm_insertionSort scoreOrder _
    have hpw : ((opportunity_candidates data m p).filter
        (fun r => decide (r.score = q))).Pairwise scoreOrder := by
      refine List.pairwise_of_forall_mem_list ?_
      intro a ha b hb
      have ha' := (List.mem_filter.mp ha).2
      have hb' := (List.mem_filter.mp hb).2
      simp only [decide_eq_true_eq] at ha' hb'
      rw [scoreOrder, ha', hb']
    have hsub : List.Sublist
        ((opportunity_candidates data m p).filter (fun r => decide (r.score = q)))
        ((opportunity_candidates data m p).insertionSort scoreOrder) :=
      List.sublist_insertionSort hpw (List.filter_sublist _)
    have hpermf : List.Perm
        (((opportunity_candidates data m p).insertionSort
          scoreOrder).filter (fun r => decide (r.score = q)))
        ((opportunity_candidates data m p).filter (fun r => decide (r.score = q))) :=
      hperm.filter _
    have hsub2 : List.Sublist
        ((opportunity_candidates data m p).filter (fun r => decide (r.score = q)))
        (((opportunity_candidates data m p).insertionSort scoreOrder).filter
          (fun r => decide (r.score = q))) := by
      have h1 := hsub.filter (fun r => decide (r.score = q))
      rwa [List.filter_eq_self.mpr (fun a ha => (List.mem_filter.mp ha).2)] at h1
    exact (hsub2.eq_of_length hpermf.length_eq.symm).symm
  · rw [opportunity_candidates]
    refine List.pairwise_flatMap.mpr ⟨?_, ?_⟩
    · intro s _
      refine List.pairwise_filterMap.mpr ?_
      refine (intRange_pairwise _ _).imp ?_
      intro len1 len2 hlt r1 h1 r2 h2
      rw [Option.mem_def] at h1 h2
      obtain ⟨-, -, -, -, rfl⟩ := opportunity_guard_eq_some.mp h1
      obtain ⟨-, -, -, -, rfl⟩ := opportunity_guard_eq_some.mp h2
      exact Or.inr ⟨by rw [mkOpportunity_start, mkOpportunity_start],
        by rw [mkOpportunity_length, mkOpportunity_length]; exact hlt⟩
    · refine (intRange_pairwise _ _).imp ?_
      intro s1 s2 hlt r1 h1 r2 h2
      rw [List.mem_filterMap] at h1 h2
      obtain ⟨len1, -, hg1⟩ := h1
      obtain ⟨len2, -, hg2⟩ := h2
      obtain ⟨-, -, -, -, rfl⟩ := opportunity_guard_eq_some.mp hg1
      obtain ⟨-, -, -, -, rfl⟩ := opportunity_guard_eq_some.mp hg2
      exact Or.inl (by rw [mkOpportunity_start, mkOpportunity_start]; exact hlt)

theorem intRange_length (a b : Int) : (intRange a b).length = (b + 1 - a).toNat := by
  simp [intRange]

theorem intRange_self (a : Int) : intRange a a = [a] := by
  unfold intRange
  rw [show (a + 1 - a).toNat = 1 by omega, show List.range 1 = [0] from rfl]
  simp

theorem intRange_cons {a b : Int} (h : a ≤ b) :
    intRange a b = a :: intRange (a + 1) b := by
  unfold intRange
  rw [show (b + 1 - a).toNat = (b + 1 - (a + 1)).toNat + 1 by omega,
    List.range_succ_eq_map, List.map_cons, List.map_map]
  have hf : ((fun k : Nat => a + (k : Int)) ∘ Nat.succ) =
      (fun k : Nat => a + 1 + (k : Int)) := by
    funext k
    simp only [Function.comp_apply]
    push_cast
    ring
  rw [hf]
  simp

theorem intRange_concat {a b : Int} (h : a ≤ b + 1) :
    intRange a b ++ [b + 1] = intRange a (b + 1) := by
  unfold intRange
  rw [show (b + 1 + 1 - a).toNat = (b + 1 - a).toNat + 1 by omega, List.range_succ,
    List.map_append]
  congr 1
  simp only [List.map_cons, List.map_nil]
  congr 1
  omega

theorem intRange_headD {a b : Int} (h : a ≤ b) : (intRange a b).headD 0 = a := by
  rw [intRange_cons h]
  rfl

theorem intRange_getLastD {a b : Int} (h : a ≤ b) : (intRange a b).getLastD 0 = b := by
  have hsplit : intRange a b = intRange a (b - 1) ++ [b] := by
    have hc := intRange_concat (a := a) (b := b - 1) (by omega)
    rw [show b - 1 + 1 = b by omega] at hc
    exact hc.symm
  rw [hsplit, List.getLastD_concat]

theorem mkRun_intRange {a b : Int} (h : a ≤ b) : mkRun (intRange a b) = runOf a b := by
  unfold mkRun runOf
  rw [intRange_headD h, intRange_getLastD h, intRange_length]

theorem emit_mem {s prev : Int} (hsp : s ≤ prev) (r : RunRec) :
    (r ∈ (if 2 ≤ (intRange s prev).length then [mkRun (intRange s prev)] else [])) ↔
      (s + 1 ≤ prev ∧ r = runOf s prev) := by
  by_cases hgap : s + 1 ≤ prev
  · rw [if_pos (by rw [intRange_length]; omega), List.mem_singleton, mkRun_intRange hsp]
    exact ⟨fun h => ⟨hgap, h⟩, fun h => h.2⟩
  · rw [if_neg (by rw [intRange_length]; omega)]
    constructor
    · intro h; simp at h
    · rintro ⟨h, -⟩; exact absurd h hgap

theorem run_end_forced {S : Finset Int} {s prev b : Int}
    (hsp : s ≤ prev)
    (hIcc : ∀ x, s ≤ x → x ≤ prev → x ∈ S)
    (hprev1 : (prev + 1) ∉ S)
    (hIab : ∀ x, s ≤ x → x ≤ b → x ∈ S)
    (hbm : (b + 1) ∉ S) (hsb : s ≤ b) : b = prev := by
  by_contra hne
  rcases lt_or_gt_of_ne hne with hlt | hgt
  · exact hbm (hIcc (b + 1) (by omega) (by omega))
  · exact hprev1 (hIab (prev + 1) (by omega) (by omega))

/-- The scan, started on the partial run [s..prev] with the remaining
sorted elements above prev, emits exactly the maximal runs (length at
least 2) of S that either extend the current run (a = s) or lie entirely
above prev. -/
theorem scanRuns_spec (S : Finset Int) :
    ∀ (rest : List Int) (s prev : Int),
      s ≤ prev →
      (∀ x, s ≤ x → x ≤ prev → x ∈ S) →
      (s - 1) ∉ S →
      rest.Sorted (· < ·) →
      (∀ x, x ∈ rest ↔ (x ∈ S ∧ prev < x)) →
      ∀ r, r ∈ scanRuns (intRange s prev) prev rest ↔
        ∃ a b : Int, a + 1 ≤ b ∧
          (∀ x, a ≤ x → x ≤ b → x ∈ S) ∧ (a - 1) ∉ S ∧ (b + 1) ∉ S ∧
          (a = s ∨ prev < a) ∧ r = runOf a b := by
  intro rest
  induction rest with
  | nil =>
    intro s prev hsp hIcc hsm _ hmem r
    have hprev1 : (prev + 1) ∉ S := fun hc => by
      simpa using (hmem (prev + 1)).mpr ⟨hc, by omega⟩
    show r ∈ (if 2 ≤ (intRange s prev).length then [mkRun (intRange s prev)] else []) ↔ _
    rw [emit_mem hsp r]
    constructor
    · rintro ⟨hgap, rfl⟩
      exact ⟨s, prev, hgap, hIcc, hsm, hprev1, Or.inl rfl, rfl⟩
    · rintro ⟨a, b, hab, hIab, ham, hbm, hcase, rfl⟩
      rcases hcase with rfl | hlt
      · have hb : b = prev := run_end_forced hsp hIcc hprev1 hIab hbm (by omega)
        subst hb
        exact ⟨by omega, rfl⟩
      · exfalso
        have haS : a ∈ S := hIab a le_rfl (by omega)
        simpa using (hmem a).mpr ⟨haS, hlt⟩
  | cons c rest2 ih =>
    intro s prev hsp hIcc hsm hsort hmem r
    have hcS : c ∈ S := ((hmem c).mp (List.mem_cons_self c rest2)).1
    have hcp : prev < c := ((hmem c).mp (List.mem_cons_self c rest2)).2
    have hsort2 : rest2.Sorted (· < ·) := (List.sorted_cons.mp hsort).2
    have hmem2 : ∀ x, x ∈ rest2 ↔ (x ∈ S ∧ c < x) := by
      intro x
      constructor
      · intro hx
        exact ⟨((hmem x).mp (List.mem_cons_of_mem c hx)).1,
          (List.sorted_cons.mp hsort).1 x hx⟩
      · rintro ⟨hxS, hcx⟩
        have hx' := (hmem x).mpr ⟨hxS, by omega⟩
        rcases List.mem_cons.mp hx' with rfl | hx2
        · exact absurd hcx (lt_irrefl x)
        · exact hx2
    show r ∈ (if c = prev + 1 then scanRuns (intRange s prev ++ [c]) c rest2
        else (if 2 ≤ (intRange s prev).length then [mkRun (intRange s prev)] else [])
          ++ scanRuns [c] c rest2) ↔ _
    by_cases hc : c = prev + 1
    · rw [if_pos hc]
      subst hc
      rw [intRange_concat (by omega)]
      have hIcc2 : ∀ x, s ≤ x → x ≤ prev + 1 → x ∈ S := by
        intro x h1 h2
        by_cases hx : x ≤ prev
        · exact hIcc x h1 hx
        · rw [show x = prev + 1 by omega]; exact hcS
      rw [ih s (prev + 1) (by omega) hIcc2 hsm hsort2 hmem2 r]
      constructor
      · rintro ⟨a, b, hab, h1, h2, h3, hcase, rfl⟩
        refine ⟨a, b, hab, h1, h2, h3, ?_, rfl⟩
        rcases hcase with rfl | hlt
        · exact Or.inl rfl
        · exact Or.inr (by omega)
      · rintro ⟨a, b, hab, h1, h2, h3, hcase, rfl⟩
        refine ⟨a, b, hab, h1, h2, h3, ?_, rfl⟩
        rcases hcase with rfl | hlt
        · exact Or.inl rfl
        · right
          by_cases ha : a = prev + 1
          · exfalso
            apply h2
            rw [ha, show prev + 1 - 1 = prev by omega]
            exact hIcc prev hsp le_rfl
          · omega
    · rw [if_neg hc]
      have hprev1 : (prev + 1) ∉ S := by
        intro hc'
        have hx' := (hmem (prev + 1)).mpr ⟨hc', by omega⟩
        rcases List.mem_cons.mp hx' with heq | hmm2
        · omega
        · have := (List.sorted_cons.mp hsort).1 _ hmm2; omega
      have hcm1 : (c - 1) ∉ S := by
        intro hc'
        have hx' := (hmem (c - 1)).mpr ⟨hc', by omega⟩
        rcases List.mem_cons.mp hx' with heq | hmm2
        · omega
        · have := (List.sorted_cons.mp hsort).1 _ hmm2; omega
      have hIcc_c : ∀ x, c ≤ x → x ≤ c → x ∈ S := by
        intro x h1 h2
        rw [show x = c by omega]
        exact hcS
      rw [List.mem_append, emit_mem hsp r,
        show ([c] : List Int) = intRange c c from (intRange_self c).symm,
        ih c c le_rfl hIcc_c hcm1 hsort2 hmem2 r]
      constructor
      · rintro (⟨hgap, rfl⟩ | ⟨a, b, hab, h1, h2, h3, hcase, rfl⟩)
        · exact ⟨s, prev, hgap, hIcc, hsm, hprev1, Or.inl rfl, rfl⟩
        · refine ⟨a, b, hab, h1, h2, h3, Or.inr ?_, rfl⟩
          rcases hcase with rfl | hlt <;> omega
      · rintro ⟨a, b, hab, h1, h2, h3, hcase, rfl⟩
        rcases hcase with rfl | hlt
        · have hb : b = prev := run_end_forced hsp hIcc hprev1 h1 h3 (by omega)
          subst hb
          exact Or.inl ⟨by omega, rfl⟩
        · right
          have haS : a ∈ S := h1 a le_rfl (by omega)
          have hx' := (hmem a).mpr ⟨haS, hlt⟩
          refine ⟨a, b, hab, h1, h2, h3, ?_, rfl⟩
          rcases List.mem_cons.mp hx' with rfl | hmm2
          · exact Or.inl rfl
          · exact Or.inr ((List.sorted_cons.mp hsort).1 _ hmm2)

/-- Runs are emitted by the scan with strictly increasing start cotas. -/
theorem scanRuns_pairwise :
    ∀ (rest : List Int) (cur : List Int) (prev : Int),
      cur ≠ [] →
      (∀ x ∈ rest, prev < x) → rest.Sorted (· < ·) → cur.headD 0 ≤ prev →
      ((scanRuns cur prev rest).Pairwise (fun r1 r2 => r1.start < r2.start) ∧
        ∀ r ∈ scanRuns cur prev rest, cur.headD 0 ≤ r.start) := by
  intro rest
  induction rest with
  | nil =>
    intro cur prev hne _ _ _
    refine ⟨?_, ?_⟩
    · by_cases hlen : 2 ≤ cur.length
      · show ((if 2 ≤ cur.length then [mkRun cur] else []).Pairwise _)
        rw [if_pos hlen]
        exact List.pairwise_singleton _ _
      · show ((if 2 ≤ cur.length then [mkRun cur] else []).Pairwise _)
        rw [if_neg hlen]
        exact List.Pairwise.nil
    · intro r hr
      by_cases hlen : 2 ≤ cur.length
      · rw [show scanRuns cur prev [] =
            (if 2 ≤ cur.length then [mkRun cur] else []) from rfl, if_pos hlen] at hr
        rw [List.mem_singleton.mp hr]
        exact le_rfl
      · rw [show scanRuns cur prev [] =
            (if 2 ≤ cur.length then [mkRun cur] else []) from rfl, if_neg hlen] at hr
        simp at hr
  | cons c rest2 ih =>
    intro cur prev hne hgt hsort hhd
    have hcgt : prev < c := hgt c (List.mem_cons_self c rest2)
    have hgt2 : ∀ x ∈ rest2, c < x := (List.sorted_cons.mp hsort).1
    have hsort2 : rest2.Sorted (· < ·) := (List.sorted_cons.mp hsort).2
    have hunfold : scanRuns cur prev (c :: rest2) =
        (if c = prev + 1 then scanRuns (cur ++ [c]) c rest2
         else (if 2 ≤ cur.length then [mkRun cur] else [])
           ++ scanRuns [c] c rest2) := rfl
    by_cases hc : c = prev + 1
    · have hne2 : cur ++ [c] ≠ [] := by simp
      have hhd2 : (cur ++ [c]).headD 0 = cur.headD 0 := by
        cases cur with
        | nil => exact absurd rfl hne
        | cons y ys => rfl
      obtain ⟨ihp, ihb⟩ := ih (cur ++ [c]) c hne2 hgt2 hsort2 (by rw [hhd2]; omega)
      refine ⟨?_, ?_⟩
      · rw [hunfold, if_pos hc]
        exact ihp
      · intro r hr
        rw [hunfold, if_pos hc] at hr
        have := ihb r hr
        rw [hhd2] at this
        exact this
    · have hhd3 : ([c] : List Int).headD 0 = c := rfl
      obtain ⟨ihp, ihb⟩ := ih [c] c (by simp) hgt2 hsort2 (by rw [hhd3])
      have hfirst : ∀ r1, r1 ∈ (if 2 ≤ cur.length then [mkRun cur] else []) →
          r1 = mkRun cur := by
        intro r1 hr1
        by_cases hlen : 2 ≤ cur.length
        · rw [if_pos hlen] at hr1
          exact List.mem_singleton.mp hr1
        · rw [if_neg hlen] at hr1
          simp at hr1
      refine ⟨?_, ?_⟩
      · rw [hunfold, if_neg hc, List.pairwise_append]
        refine ⟨?_, ihp, ?_⟩
        · by_cases hlen : 2 ≤ cur.length
          · rw [if_pos hlen]
            exact List.pairwise_singleton _ _
          · rw [if_neg hlen]
            exact List.Pairwise.nil
        · intro r1 hr1 r2 hr2
          have hb2 := ihb r2 hr2
          rw [hhd3] at hb2
          rw [hfirst r1 hr1]
          show cur.headD 0 < r2.start
          omega
      · intro r hr
        rw [hunfold, if_neg hc, List.mem_append] at hr
        rcases hr with hr | hr
        · rw [hfirst r hr]
          exact le_rfl
        · have := ihb r hr
          rw [hhd3] at this
          omega

theorem dedup_sort_sorted_lt (l : List Int) :
    ((l.dedup).insertionSort (· ≤ ·)).Sorted (· < ·) :=
  (List.sorted_insertionSort _ _).lt_of_le
    ((List.nodup_dedup l).perm (List.perm_insertionSort _ _).symm)

/-- Membership characterization of the run finder: the output records are
exactly the maximal runs of two or more consecutive members of the input. -/
theorem runs_mem_iff (l : List Int) (r : RunRec) :
    r ∈ find_consecutive_sequences l ↔
      ∃ a b : Int, a + 1 ≤ b ∧ Finset.Icc a b ⊆ l.toFinset ∧
        (a - 1) ∉ l.toFinset ∧ (b + 1) ∉ l.toFinset ∧ r = runOf a b := by
  cases hsorted : (l.dedup).insertionSort (· ≤ ·) with
  | nil =>
    have hsimp : find_consecutive_sequences l = [] := by
      simp only [find_consecutive_sequences, hsorted]
    rw [hsimp]
    constructor
    · intro h; simp at h
    · rintro ⟨a, b, hab, hsub, -, -, -⟩
      have ha : a ∈ l.toFinset := hsub (Finset.mem_Icc.mpr ⟨le_rfl, by omega⟩)
      rw [List.mem_toFinset] at ha
      have hmem : a ∈ (l.dedup).insertionSort (· ≤ ·) := by
        rw [List.mem_insertionSort, List.mem_dedup]
        exact ha
      rw [hsorted] at hmem
      simp at hmem
  | cons x xs =>
    have hsimp : find_consecutive_sequences l =
        (scanRuns [x] x xs).insertionSort runsOrder := by
      simp only [find_consecutive_sequences, hsorted]
    have hmem_all : ∀ y, y ∈ x :: xs ↔ y ∈ l := by
      intro y
      rw [← hsorted, List.mem_insertionSort, List.mem_dedup]
    have hsorted_lt : (x :: xs).Sorted (· < ·) := by
      rw [← hsorted]
      exact dedup_sort_sorted_lt l
    have hxF : x ∈ l.toFinset := by
      rw [List.mem_toFinset]
      exact (hmem_all x).mp (List.mem_cons_self x xs)
    have hIcc1 : ∀ y, x ≤ y → y ≤ x → y ∈ l.toFinset := by
      intro y h1 h2
      rw [show y = x by omega]
      exact hxF
    have hsm1 : (x - 1) ∉ l.toFinset := by
      intro hmem'
      rw [List.mem_toFinset] at hmem'
      have hx' := (hmem_all (x - 1)).mpr hmem'
      rcases List.mem_cons.mp hx' with heq | hmm2
      · omega
      · have := (List.sorted_cons.mp hsorted_lt).1 _ hmm2
        omega
    have hmem1 : ∀ y, y ∈ xs ↔ (y ∈ l.toFinset ∧ x < y) := by
      intro y
      constructor
      · intro hy
        refine ⟨?_, (List.sorted_cons.mp hsorted_lt).1 y hy⟩
        rw [List.mem_toFinset]
        exact (hmem_all y).mp (List.mem_cons_of_mem x hy)
      · rintro ⟨hyF, hxy⟩
        rw [List.mem_toFinset] at hyF
        have := (hmem_all y).mpr hyF
        rcases List.mem_cons.mp this with rfl | h2
        · exact absurd hxy (lt_irrefl y)
        · exact h2
    rw [hsimp, List.mem_insertionSort,
      show ([x] : List Int) = intRange x x from (intRange_self x).symm,
      scanRuns_spec l.toFinset xs x x le_rfl hIcc1 hsm1
        (List.sorted_cons.mp hsorted_lt).2 hmem1 r]
    constructor
    · rintro ⟨a, b, hab, h1, h2, h3, -, rfl⟩
      refine ⟨a, b, hab, ?_, h2, h3, rfl⟩
      intro z hz
      rw [Finset.mem_Icc] at hz
      exact h1 z hz.1 hz.2
    · rintro ⟨a, b, hab, hsub, h2, h3, rfl⟩
      refine ⟨a, b, hab, fun z hz1 hz2 => hsub (Finset.mem_Icc.mpr ⟨hz1, hz2⟩),
        h2, h3, ?_, rfl⟩
      have haS : a ∈ l.toFinset := hsub (Finset.mem_Icc.mpr ⟨le_rfl, by omega⟩)
      rw [List.mem_toFinset] at haS
      have hx' := (hmem_all a).mpr haS
      rcases List.mem_cons.mp hx' with rfl | hmm2
      · exact Or.inl rfl
      · exact Or.inr ((List.sorted_cons.mp hsorted_lt).1 _ hmm2)

/-- The run-finder output is sorted by strictly descending length with
strictly ascending start among equal lengths. -/
theorem runs_sorted_strict (l : List Int) :
    (find_consecutive_sequences l).Pairwise
      (fun r1 r2 => r2.length < r1.length ∨
        (r1.length = r2.length ∧ r1.start < r2.start)) := by
  cases hsorted : (l.dedup).insertionSort (· ≤ ·) with
  | nil =>
    have hsimp : find_consecutive_sequences l = [] := by
      simp only [find_consecutive_sequences, hsorted]
    rw [hsimp]
    exact List.Pairwise.nil
  | cons x xs =>
    have hsimp : find_consecutive_sequences l =
        (scanRuns [x] x xs).insertionSort runsOrder := by
      simp only [find_consecutive_sequences, hsorted]
    have hsorted_lt : (x :: xs).Sorted (· < ·) := by
      rw [← hsorted]
      exact dedup_sort_sorted_lt l
    have hpair := (scanRuns_pairwise xs [x] x (by simp)
      (List.sorted_cons.mp hsorted_lt).1 (List.sorted_cons.mp hsorted_lt).2
      (le_of_eq rfl)).1
    have hnodup : (scanRuns [x] x xs).Nodup := by
      refine hpair.imp ?_
      intro r1 r2 h heq
      rw [heq] at h
      exact lt_irrefl _ h
    have hnodup_out : ((scanRuns [x] x xs).insertionSort runsOrder).Nodup :=
      hnodup.perm (List.perm_insertionSort runsOrder _).symm
    have hord : ((scanRuns [x] x xs).insertionSort runsOrder).Pairwise runsOrder :=
      List.sorted_insertionSort runsOrder _
    rw [hsimp]
    refine List.Pairwise.imp_of_mem ?_ (hord.and hnodup_out)
    rintro r1 r2 h1mem h2mem ⟨hro, hne⟩
    rw [← hsimp] at h1mem h2mem
    obtain ⟨a1, b1, hab1, -, -, -, hr1⟩ := (runs_mem_iff l r1).mp h1mem
    obtain ⟨a2, b2, hab2, -, -, -, hr2⟩ := (runs_mem_iff l r2).mp h2mem
    unfold runsOrder at hro
    rcases hro with h | ⟨hlen, hineq⟩
    · exact Or.inl h
    · refine Or.inr ⟨hlen, lt_of_le_of_ne hineq ?_⟩
      intro heqstart
      apply hne
      rw [hr1, hr2]
      rw [hr1, hr2] at hlen heqstart
      unfold runOf at hlen heqstart ⊢
      simp only at hlen heqstart
      obtain rfl : a1 = a2 := heqstart
      obtain rfl : b1 = b2 := by omega
      rfl

/-- C6. The run finder returns exactly the maximal runs of two or more
strictly consecutive integers contained in the deduplicated input (each as
its member list with start, end and length), sorted by strictly descending
length with ascending start id as the tie-break; an empty input yields an
empty result. -/
theorem C6_run_finder :
    (∀ (quotas_list : List Int) (r : RunRec),
        r ∈ find_consecutive_sequences quotas_list ↔
          ∃ a b : Int, a + 1 ≤ b ∧ Finset.Icc a b ⊆ quotas_list.toFinset ∧
            (a - 1) ∉ quotas_list.toFinset ∧ (b + 1) ∉ quotas_list.toFinset ∧
            r = runOf a b) ∧
    (∀ quotas_list : List Int,
        (find_consecutive_sequences quotas_list).Pairwise
          (fun r1 r2 => r2.length < r1.length ∨
            (r1.length = r2.length ∧ r1.start < r2.start))) ∧
    find_consecutive_sequences [] = [] :=
  ⟨runs_mem_iff, runs_sorted_strict, rfl⟩

/-- Witness for C6 at the worked example of the spec: the run 6..8 of
[1, 2, 6, 7, 8, 12, 13, 14, 34, 35, 36, 39]. -/
theorem C6_run_finder_witness :
    runOf 6 8 ∈ find_consecutive_sequences [1, 2, 6, 7, 8, 12, 13, 14, 34, 35, 36, 39] :=
  (C6_run_finder.1 [1, 2, 6, 7, 8, 12, 13, 14, 34, 35, 36, 39] (runOf 6 8)).mpr
    ⟨6, 8, by norm_num, by decide, by decide, by decide, rfl⟩

end Consorcio
